import Mathlib

set_option maxRecDepth 100000

/-!
Verification of the Activity Change-Tracking and Markdown Section Merger of
`scripts/project_monitor.py`.

Documents and rendered sections are modelled as `List Char`.  Python's
`str.find(pat, start)` is modelled by `findFrom` (returning `Option Nat`
instead of `-1`).  Timestamps are modelled at whole-second resolution as
`Nat` (UTC); file sizes as `Nat` bytes.  Python's `list.sort(key=...,
reverse=True)` is a stable sort and is modelled by a stable insertion sort.
-/

/-- Scan over `l`, returning the first index `i₀ + k` (where `k` is the
position inside `l`) at which `pat` is a prefix of the rest of `l`.
Models the scanning loop of CPython's `str.find`. -/
def findAux (pat : List Char) : List Char → Nat → Option Nat
  | [], i => if pat.isPrefixOf ([] : List Char) then some i else none
  | s@(_ :: t), i => if pat.isPrefixOf s then some i else findAux pat t (i + 1)

/-- `findFrom pat s k` models Python's `s.find(pat, k)`: the least index
`j ≥ k` such that `pat` occurs in `s` at position `j`, or `none`. -/
def findFrom (pat s : List Char) (k : Nat) : Option Nat :=
  findAux pat (s.drop k) k

theorem findAux_some {pat : List Char} :
    ∀ (l : List Char) (i j : Nat), findAux pat l i = some j →
      ∃ m, j = i + m ∧ pat.isPrefixOf (l.drop m) ∧
        ∀ m' < m, ¬ pat.isPrefixOf (l.drop m') := by
  intro l
  induction l with
  | nil =>
    intro i j h
    simp only [findAux] at h
    split at h
    · rename_i hp
      cases h
      exact ⟨0, rfl, by simpa using hp, fun m' hm' => absurd hm' (Nat.not_lt_zero m')⟩
    · exact absurd h (by simp)
  | cons x t ih =>
    intro i j h
    simp only [findAux] at h
    split at h
    · rename_i hp
      cases h
      exact ⟨0, rfl, by simpa using hp, fun m' hm' => absurd hm' (Nat.not_lt_zero m')⟩
    · rename_i hp
      obtain ⟨m, hm, hpre, hmin⟩ := ih (i + 1) j h
      refine ⟨m + 1, by omega, by simpa using hpre, ?_⟩
      intro m' hm'
      cases m' with
      | zero => simpa using hp
      | succ m'' =>
        have := hmin m'' (by omega)
        simpa using this

theorem findAux_intro (pat : List Char) :
    ∀ (l : List Char) (i m : Nat), pat.isPrefixOf (l.drop m) →
      (∀ m' < m, ¬ pat.isPrefixOf (l.drop m')) →
      findAux pat l i = some (i + m) := by
  intro l
  induction l with
  | nil =>
    intro i m hpre hmin
    cases m with
    | zero => simp only [findAux]; simp only [List.drop] at hpre; simp [hpre]
    | succ m' =>
      exfalso
      exact hmin 0 (Nat.succ_pos m') (by simpa using hpre)
  | cons x t ih =>
    intro i m hpre hmin
    cases m with
    | zero =>
      simp only [List.drop] at hpre
      simp [findAux, hpre]
    | succ m' =>
      have hp0 : ¬ pat.isPrefixOf (x :: t) := by
        simpa using hmin 0 (Nat.succ_pos m')
      have step : findAux pat (x :: t) i = findAux pat t (i + 1) := by
        simp [findAux, hp0]
      rw [step]
      have := ih (i + 1) m' (by simpa using hpre)
        (fun m'' hm'' => by simpa using hmin (m'' + 1) (by omega))
      rw [this]
      congr 1
      omega

theorem findFrom_eq_some {pat s : List Char} {k j : Nat}
    (hk : k ≤ j) (hpre : pat.isPrefixOf (s.drop j))
    (hmin : ∀ i, k ≤ i → i < j → ¬ pat.isPrefixOf (s.drop i)) :
    findFrom pat s k = some j := by
  unfold findFrom
  have h1 : (s.drop k).drop (j - k) = s.drop j := by
    rw [List.drop_drop]
    congr 1
    omega
  have := findAux_intro pat (s.drop k) k (j - k) (by rw [h1]; exact hpre)
    (fun m' hm' => by
      rw [List.drop_drop]
      exact hmin (k + m') (by omega) (by omega))
  rw [this]
  congr 1
  omega

theorem findFrom_spec {pat s : List Char} {k j : Nat}
    (h : findFrom pat s k = some j) :
    k ≤ j ∧ pat.isPrefixOf (s.drop j) ∧
      ∀ i, k ≤ i → i < j → ¬ pat.isPrefixOf (s.drop i) := by
  unfold findFrom at h
  obtain ⟨m, hm, hpre, hmin⟩ := findAux_some (s.drop k) k j h
  subst hm
  refine ⟨Nat.le_add_right k m, by rwa [List.drop_drop] at hpre, ?_⟩
  intro i hki hij
  have := hmin (i - k) (by omega)
  rw [List.drop_drop] at this
  have heq : k + (i - k) = i := by omega
  rwa [heq] at this

theorem findFrom_lt_length {pat s : List Char} {k j : Nat}
    (h : findFrom pat s k = some j) (hpat : pat ≠ []) : j < s.length := by
  obtain ⟨-, hpre, -⟩ := findFrom_spec h
  by_contra hge
  have : s.drop j = [] := List.drop_eq_nil_of_le (by omega)
  rw [this] at hpre
  cases pat with
  | nil => exact hpat rfl
  | cons a t => simp [List.isPrefixOf] at hpre

/-- No occurrence of `pat` starts at a position `i` with `k ≤ i < S.length`
inside the text `S ++ T` (occurrences may look past the end of `S` into `T`). -/
def noStartFrom (pat S T : List Char) (k : Nat) : Prop :=
  ∀ i, k ≤ i → i < S.length → ¬ pat.isPrefixOf ((S ++ T).drop i)

instance (pat S T : List Char) (k : Nat) :
    Decidable (noStartFrom pat S T k) :=
  decidable_of_iff
    (∀ i, i < S.length → (k ≤ i → ¬ pat.isPrefixOf ((S ++ T).drop i)))
    (by
      constructor
      · intro h i hk hi
        exact h i hi hk
      · intro h i hi hk
        exact h i hk hi)

theorem prefixOf_append_self (pat t : List Char) :
    pat.isPrefixOf (pat ++ t) = true := by
  rw [List.isPrefixOf_iff_prefix]
  exact ⟨t, rfl⟩

theorem prefixOf_of_prefixOf_left {pat X : List Char} (Y : List Char)
    (h : pat.isPrefixOf X = true) : pat.isPrefixOf (X ++ Y) = true := by
  rw [List.isPrefixOf_iff_prefix] at h ⊢
  exact h.trans ⟨Y, rfl⟩

theorem eq_cons_of_prefixOf_cons {a : Char} {p l : List Char}
    (h : (a :: p).isPrefixOf l = true) : ∃ t, l = a :: t := by
  rw [List.isPrefixOf_iff_prefix] at h
  obtain ⟨t, ht⟩ := h
  exact ⟨p ++ t, by rw [← ht]; simp⟩

theorem not_prefixOf_head {a b : Char} {p l : List Char} (hab : a ≠ b) :
    ¬ (a :: p).isPrefixOf (b :: l) = true := by
  intro h
  obtain ⟨t, ht⟩ := eq_cons_of_prefixOf_cons h
  cases ht
  exact hab rfl

theorem noStartFrom_of_head_notMem {a : Char} {p S T : List Char} {k : Nat}
    (h : a ∉ S) : noStartFrom (a :: p) S T k := by
  intro i _ hi hpre
  have hdrop : (S ++ T).drop i = S.drop i ++ T := by
    rw [List.drop_append_eq_append_drop]
    have : i - S.length = 0 := by omega
    rw [this]
    simp
  rw [hdrop] at hpre
  have hne : S.drop i ≠ [] := by
    intro hnil
    have := List.length_drop i S
    rw [hnil] at this
    simp at this
    omega
  obtain ⟨y, rest, hyr⟩ := List.exists_cons_of_ne_nil hne
  rw [hyr] at hpre
  simp only [List.cons_append] at hpre
  obtain ⟨t, ht⟩ := eq_cons_of_prefixOf_cons hpre
  have hya : y = a := by
    have := congrArg List.head? ht
    simpa using this
  apply h
  have : a ∈ S.drop i := by rw [hyr, hya]; exact List.mem_cons_self a rest
  exact List.mem_of_mem_drop this

theorem noStartFrom_single {pat T : List Char} {ch : Char} {k : Nat}
    (h : ¬ pat.isPrefixOf (ch :: T) = true) : noStartFrom pat [ch] T k := by
  intro i _ hi hpre
  simp only [List.length_cons, List.length_nil] at hi
  have : i = 0 := by omega
  subst this
  exact h hpre

theorem noStartFrom_append {pat X Y Z : List Char} {k : Nat}
    (h1 : noStartFrom pat X (Y ++ Z) k) (h2 : noStartFrom pat Y Z 0) :
    noStartFrom pat (X ++ Y) Z k := by
  intro i hk hi hpre
  rw [List.length_append] at hi
  rw [List.append_assoc] at hpre
  by_cases hx : i < X.length
  · exact h1 i hk hx hpre
  · have hdrop : (X ++ (Y ++ Z)).drop i = (Y ++ Z).drop (i - X.length) := by
      rw [List.drop_append_eq_append_drop]
      have : X.drop i = [] := List.drop_eq_nil_of_le (by omega)
      rw [this]
      simp
    rw [hdrop] at hpre
    exact h2 (i - X.length) (Nat.zero_le _) (by omega) hpre

theorem noStartFrom_shift {pat X Y Z : List Char}
    (h2 : noStartFrom pat Y Z 0) : noStartFrom pat (X ++ Y) Z X.length := by
  intro i hk hi hpre
  rw [List.length_append] at hi
  rw [List.append_assoc] at hpre
  have hdrop : (X ++ (Y ++ Z)).drop i = (Y ++ Z).drop (i - X.length) := by
    rw [List.drop_append_eq_append_drop]
    have : X.drop i = [] := List.drop_eq_nil_of_le (by omega)
    rw [this]
    simp
  rw [hdrop] at hpre
  exact h2 (i - X.length) (Nat.zero_le _) (by omega) hpre

theorem findFrom_append_at {pat S T : List Char} {k : Nat}
    (hns : noStartFrom pat S T k) (hpre : pat.isPrefixOf T = true)
    (hk : k ≤ S.length) : findFrom pat (S ++ T) k = some S.length := by
  apply findFrom_eq_some hk
  · rw [List.drop_left]
    exact hpre
  · intro i hki hi
    exact hns i hki hi

theorem findFrom_append_ge {pat S T : List Char} {k j : Nat}
    (h : findFrom pat (S ++ T) k = some j) (hns : noStartFrom pat S T k) :
    S.length ≤ j := by
  obtain ⟨hkj, hpre, -⟩ := findFrom_spec h
  by_contra hlt
  exact hns j hkj (by omega) hpre

/-- A file-modification record (`project_monitor.py` lines 105-110).  The
source dict also stores a `datetime` string; it is always the value
`fmtTime timestamp` derived on line 108, so it is modelled as the derived
function `fmtTime` rather than a separate field. -/
structure ModRecord where
  path : List Char
  timestamp : Nat
  size : Nat
deriving DecidableEq

/-- `EXCLUDE_DIRS` (`project_monitor.py` lines 23-27). -/
def EXCLUDE_DIRS : List (List Char) :=
  [".git".toList, "node_modules".toList, "__pycache__".toList, ".next".toList,
   "dist".toList, "build".toList, ".venv".toList, "venv".toList,
   ".cache".toList, ".pytest_cache".toList, "coverage".toList,
   ".nyc_output".toList, ".DS_Store".toList]

/-- `EXCLUDE_EXTENSIONS` (`project_monitor.py` lines 30-33). -/
def EXCLUDE_EXTENSIONS : List (List Char) :=
  [".pyc".toList, ".pyo".toList, ".pyd".toList, ".so".toList, ".dll".toList,
   ".dylib".toList, ".log".toList, ".pid".toList, ".lock".toList,
   ".tmp".toList, ".swp".toList, ".swo".toList]

/-- Split a character list on a separator character. -/
def splitOnChar (sep : Char) : List Char → List (List Char)
  | [] => [[]]
  | c :: rest =>
    let r := splitOnChar sep rest
    if c = sep then [] :: r
    else
      match r with
      | [] => [[c]]
      | g :: gs => (c :: g) :: gs

/-- `Path(path).parts` (`project_monitor.py` line 62): the non-empty
`/`-separated segments of the path.  (`pathlib` additionally keeps a root
component `/` for absolute paths and drops `.` segments; neither can be a
member of `EXCLUDE_DIRS`, so they are irrelevant to the exclusion test.) -/
def pathParts (p : List Char) : List (List Char) :=
  (splitOnChar '/' p).filter (fun seg => seg ≠ [])

/-- The final path component (text after the last `/`). -/
def lastComponent (p : List Char) : List Char :=
  (p.reverse.takeWhile (fun c => c ≠ '/')).reverse

/-- The extension part of `os.path.splitext(path)[1]`
(`project_monitor.py` line 70), mirroring CPython `genericpath._splitext`:
the suffix of the final component from its last dot, except that a final
component consisting only of leading dots has no extension. -/
def splitextExt (p : List Char) : List Char :=
  let base := lastComponent p
  if base.contains '.' then
    let ext := '.' :: (base.reverse.takeWhile (fun c => c ≠ '.')).reverse
    let stem := base.take (base.length - ext.length)
    if stem.any (fun c => c ≠ '.') then ext else []
  else []

/-- `should_exclude_path` (`project_monitor.py` lines 60-74): a path is
excluded when some path segment is in `EXCLUDE_DIRS`, or its extension is
in `EXCLUDE_EXTENSIONS`. -/
def should_exclude_path (p : List Char) : Bool :=
  (pathParts p).any (fun part => EXCLUDE_DIRS.contains part) ||
    EXCLUDE_EXTENSIONS.contains (splitextExt p)

/-- Insert a record into a list that is already sorted descending by
timestamp, placing it before the first element whose timestamp is not
larger.  Together with `sortDescByTime` this models Python's stable
`modifications.sort(key=lambda x: x['timestamp'], reverse=True)`
(`project_monitor.py` line 115): ties keep encounter order. -/
def insertDescByTime (x : ModRecord) : List ModRecord → List ModRecord
  | [] => [x]
  | y :: ys => if y.timestamp ≤ x.timestamp then x :: y :: ys
               else y :: insertDescByTime x ys

/-- Stable sort, descending by timestamp (`project_monitor.py` line 115). -/
def sortDescByTime : List ModRecord → List ModRecord
  | [] => []
  | x :: xs => insertDescByTime x (sortDescByTime xs)

/-- `get_file_modifications` (`project_monitor.py` lines 76-123), modelled
from the point where the eligible files and their stat results are known:
the input list holds one record per file in encounter order; the function
drops records whose path is excluded (line 97), sorts descending by
timestamp with a stable sort (line 115) and truncates to `limit`
entries (line 116). -/
def get_file_modifications (files : List ModRecord) (limit : Nat) :
    List ModRecord :=
  (sortDescByTime (files.filter (fun f => !should_exclude_path f.path))).take
    limit

/-- Descending-timestamp order refined with a tie-break relation `R`:
`a` precedes `b` when `a` is strictly newer, or they tie and `R a b`. -/
def descTie (R : ModRecord → ModRecord → Prop) (a b : ModRecord) : Prop :=
  b.timestamp < a.timestamp ∨ (a.timestamp = b.timestamp ∧ R a b)

theorem insertDescByTime_perm (x : ModRecord) (l : List ModRecord) :
    (insertDescByTime x l).Perm (x :: l) := by
  induction l with
  | nil => simp [insertDescByTime]
  | cons y ys ih =>
    simp only [insertDescByTime]
    split
    · exact List.Perm.refl _
    · exact List.Perm.trans ((List.perm_cons y).mpr ih) (List.Perm.swap x y ys)

theorem sortDescByTime_perm (l : List ModRecord) :
    (sortDescByTime l).Perm l := by
  induction l with
  | nil => simp [sortDescByTime]
  | cons x xs ih =>
    exact List.Perm.trans (insertDescByTime_perm x (sortDescByTime xs))
      ((List.perm_cons x).mpr ih)

theorem insertDescByTime_pairwise {R : ModRecord → ModRecord → Prop}
    {x : ModRecord} {l : List ModRecord}
    (hl : l.Pairwise (descTie R)) (hx : ∀ y ∈ l, R x y) :
    (insertDescByTime x l).Pairwise (descTie R) := by
  induction l with
  | nil => simp [insertDescByTime]
  | cons y ys ih =>
    rw [List.pairwise_cons] at hl
    obtain ⟨hy, hys⟩ := hl
    simp only [insertDescByTime]
    split
    · rename_i hle
      rw [List.pairwise_cons]
      constructor
      · intro a ha
        rcases List.mem_cons.mp ha with rfl | hmem
        · rcases Nat.lt_or_ge a.timestamp x.timestamp with hlt | hge
          · exact Or.inl hlt
          · exact Or.inr ⟨by omega, hx a (List.mem_cons_self a ys)⟩
        · rcases hy a hmem with hlt | ⟨heq, -⟩
          · exact Or.inl (by omega)
          · rcases Nat.lt_or_ge a.timestamp x.timestamp with hlt' | hge'
            · exact Or.inl hlt'
            · exact Or.inr ⟨by omega, hx a (List.mem_cons_of_mem y hmem)⟩
      · rw [List.pairwise_cons]
        exact ⟨hy, hys⟩
    · rename_i hgt
      rw [List.pairwise_cons]
      constructor
      · intro a ha
        have := (insertDescByTime_perm x ys).mem_iff.mp ha
        rcases List.mem_cons.mp this with rfl | hmem
        · exact Or.inl (by omega)
        · exact hy a hmem
      · exact ih hys (fun a ha => hx a (List.mem_cons_of_mem y ha))

theorem sortDescByTime_pairwise {R : ModRecord → ModRecord → Prop}
    {l : List ModRecord} (hl : l.Pairwise R) :
    (sortDescByTime l).Pairwise (descTie R) := by
  induction l with
  | nil => simp [sortDescByTime]
  | cons x xs ih =>
    rw [List.pairwise_cons] at hl
    obtain ⟨hx, hxs⟩ := hl
    exact insertDescByTime_pairwise (ih hxs)
      (fun y hy => hx y ((sortDescByTime_perm xs).mem_iff.mp hy))

/-- Decimal/hexadecimal digit characters. -/
def digitList : List Char := "0123456789".toList

def hexList : List Char := "0123456789abcdef".toList

def digitChar (n : Nat) : Char := digitList.getD n '0'

def hexChar (n : Nat) : Char := hexList.getD n '0'

/-- Decimal digits with structural fuel (the fuel always suffices, since
a number below `10 ^ fuel` has at most `fuel` digits). -/
def natDigitsAux : Nat → Nat → List Char
  | 0, n => [digitChar n]
  | fuel + 1, n =>
    if n < 10 then [digitChar n]
    else natDigitsAux fuel (n / 10) ++ [digitChar (n % 10)]

/-- Decimal digits of a natural number, most significant first. -/
def natDigits (n : Nat) : List Char := natDigitsAux n n

/-- Zero-pad a digit string on the left to width `w` (strftime `%0nd`). -/
def padZ (w : Nat) (s : List Char) : List Char :=
  List.replicate (w - s.length) '0' ++ s

/-- `datetime.fromtimestamp(mtime).strftime("%Y-%m-%d %H:%M:%S")`
(`project_monitor.py` line 108), modelled in UTC at whole-second
resolution with the standard civil-from-days calendar conversion. -/
def fmtTime (ts : Nat) : List Char :=
  let days := ts / 86400
  let secs := ts % 86400
  let z := days + 719468
  let era := z / 146097
  let doe := z % 146097
  let yoe := (doe - doe / 1460 + doe / 36524 - doe / 146096) / 365
  let y := yoe + era * 400
  let doy := doe - (365 * yoe + yoe / 4 - yoe / 100)
  let mp := (5 * doy + 2) / 153
  let dom := doy - (153 * mp + 2) / 5 + 1
  let m := if mp < 10 then mp + 3 else mp - 9
  let year := if m ≤ 2 then y + 1 else y
  padZ 4 (natDigits year) ++ "-".toList ++ padZ 2 (natDigits m) ++
    "-".toList ++ padZ 2 (natDigits dom) ++ " ".toList ++
    padZ 2 (natDigits (secs / 3600)) ++ ":".toList ++
    padZ 2 (natDigits (secs % 3600 / 60)) ++ ":".toList ++
    padZ 2 (natDigits (secs % 60))

/-- Round `num / den` to the nearest integer, ties to even (the rounding
used by Python's float formatting on exactly representable values). -/
def roundHalfEven (num den : Nat) : Nat :=
  let q := num / den
  let r := num % den
  if 2 * r < den then q
  else if den < 2 * r then q + 1
  else if q % 2 = 0 then q else q + 1

/-- Format a tenths count as Python's `f"{v:.1f}"`. -/
def fmt1f (tenths : Nat) : List Char :=
  natDigits (tenths / 10) ++ ".".toList ++ [digitChar (tenths % 10)]

/-- The size string of `format_modifications_for_markdown`
(`project_monitor.py` lines 144-145): `size/1024` KB below the 1024 KB
threshold, otherwise MB, one decimal place.  `size/1024` and `size/2^20`
are exactly representable doubles for any realistic size, so the float
formatting is modelled by exact rational rounding:
`size*10/1024 = size*5/512` tenths of a KB (resp. `size*5/2^19` tenths
of a MB), rounded half to even. -/
def sizeStr (size : Nat) : List Char :=
  if size < 1048576 then fmt1f (roundHalfEven (size * 5) 512) ++ "KB".toList
  else fmt1f (roundHalfEven (size * 5) 524288) ++ "MB".toList

/-- Path truncation (`project_monitor.py` lines 147-149). -/
def truncPath (p : List Char) : List Char :=
  if 60 < p.length then "...".toList ++ p.drop (p.length - 57) else p

/-- One table row (`project_monitor.py` line 150). -/
def pmRow (m : ModRecord) : List Char :=
  "| ".toList ++ fmtTime m.timestamp ++ " | `".toList ++ truncPath m.path ++
    "` | ".toList ++ sizeStr m.size ++ " |".toList

/-- `"\n".join(lines)` (`project_monitor.py` line 154). -/
def joinNl : List (List Char) → List Char
  | [] => []
  | [x] => x
  | x :: y :: ys => x ++ '\n' :: joinNl (y :: ys)

/-- The trailing line `f"\n*Last scan: {now}*"`
(`project_monitor.py` line 152); the formatted current time is passed in
as `now`. -/
def lastScanLine (now : List Char) : List Char :=
  "\n*Last scan: ".toList ++ now ++ "*".toList

/-- `format_modifications_for_markdown` (`project_monitor.py` lines
134-154). -/
def format_modifications (mods : List ModRecord) (now : List Char) :
    List Char :=
  if mods.isEmpty then "No recent modifications found.".toList
  else
    joinNl (["## Recent Activity (Last 20 Edits)\n".toList,
             "| Date & Time | File | Size |".toList,
             "|-------------|------|------|".toList] ++
            mods.map pmRow ++ [lastScanLine now])

/-- JSON escape of one character, as `json.dumps` with the default
`ensure_ascii=True` produces it. -/
def jsonEscChar (c : Char) : List Char :=
  if c = '"' then ['\\', '"']
  else if c = '\\' then ['\\', '\\']
  else if c = '\n' then ['\\', 'n']
  else if c = '\t' then ['\\', 't']
  else if c = '\r' then ['\\', 'r']
  else if c.toNat = 8 then ['\\', 'b']
  else if c.toNat = 12 then ['\\', 'f']
  else if c.toNat < 32 then
    ['\\', 'u', '0', '0', hexChar (c.toNat / 16), hexChar (c.toNat % 16)]
  else if c.toNat < 127 then [c]
  else if c.toNat < 65536 then
    '\\' :: 'u' :: [hexChar (c.toNat / 4096 % 16), hexChar (c.toNat / 256 % 16),
                    hexChar (c.toNat / 16 % 16), hexChar (c.toNat % 16)]
  else
    let v := c.toNat - 65536
    let hi := 55296 + v / 1024
    let lo := 56320 + v % 1024
    '\\' :: 'u' :: [hexChar (hi / 4096 % 16), hexChar (hi / 256 % 16),
                    hexChar (hi / 16 % 16), hexChar (hi % 16)] ++
      '\\' :: 'u' :: [hexChar (lo / 4096 % 16), hexChar (lo / 256 % 16),
                      hexChar (lo / 16 % 16), hexChar (lo % 16)]

/-- A JSON string literal. -/
def jsonStr (s : List Char) : List Char :=
  '"' :: s.foldr (fun c acc => jsonEscChar c ++ acc) ['"']

/-- `json.dumps` of one modification dict with `sort_keys=True`: keys in
the order `datetime`, `path`, `size`, `timestamp`, default separators.
The stored `datetime` value is `fmtTime timestamp` (line 108); the float
timestamp prints as the integer followed by `.0` at whole-second
resolution. -/
def recJson (m : ModRecord) : List Char :=
  "\x7b\"datetime\": ".toList ++ jsonStr (fmtTime m.timestamp) ++
    ", \"path\": ".toList ++ jsonStr m.path ++
    ", \"size\": ".toList ++ natDigits m.size ++
    ", \"timestamp\": ".toList ++ natDigits m.timestamp ++ ".0\x7d".toList

/-- `", ".join` for the JSON list items. -/
def joinCommaSpace : List (List Char) → List Char
  | [] => []
  | [x] => x
  | x :: y :: ys => x ++ ',' :: ' ' :: joinCommaSpace (y :: ys)

/-- `json.dumps(modifications[:5], sort_keys=True)`
(`project_monitor.py` line 131). -/
def stateString (mods : List ModRecord) : List Char :=
  '[' :: joinCommaSpace (mods.map recJson) ++ [']']

/-- UTF-8 bytes of one character (`str.encode()`). -/
def utf8Char (c : Char) : List Nat :=
  let u := c.toNat
  if u < 128 then [u]
  else if u < 2048 then [192 + u / 64, 128 + u % 64]
  else if u < 65536 then [224 + u / 4096, 128 + u / 64 % 64, 128 + u % 64]
  else [240 + u / 262144, 128 + u / 4096 % 64, 128 + u / 64 % 64,
        128 + u % 64]

def utf8Bytes (s : List Char) : List Nat :=
  s.foldr (fun c acc => utf8Char c ++ acc) []

/-- 2^32, the word modulus of MD5. -/
def M32 : Nat := 4294967296

def add32 (a b : Nat) : Nat := (a + b) % M32

/-- Rotate a 32-bit word left by `n` bits. -/
def rotl32 (x n : Nat) : Nat := x % 2 ^ (32 - n) * 2 ^ n + x / 2 ^ (32 - n)

/-- The MD5 sine-derived constant table `K[0..63]`. -/
def md5K : List Nat :=
  [0xd76aa478, 0xe8c7b756, 0x242070db, 0xc1bdceee,
   0xf57c0faf, 0x4787c62a, 0xa8304613, 0xfd469501,
   0x698098d8, 0x8b44f7af, 0xffff5bb1, 0x895cd7be,
   0x6b901122, 0xfd987193, 0xa679438e, 0x49b40821,
   0xf61e2562, 0xc040b340, 0x265e5a51, 0xe9b6c7aa,
   0xd62f105d, 0x02441453, 0xd8a1e681, 0xe7d3fbc8,
   0x21e1cde6, 0xc33707d6, 0xf4d50d87, 0x455a14ed,
   0xa9e3e905, 0xfcefa3f8, 0x676f02d9, 0x8d2a4c8a,
   0xfffa3942, 0x8771f681, 0x6d9d6122, 0xfde5380c,
   0xa4beea44, 0x4bdecfa9, 0xf6bb4b60, 0xbebfbc70,
   0x289b7ec6, 0xeaa127fa, 0xd4ef3085, 0x04881d05,
   0xd9d4d039, 0xe6db99e5, 0x1fa27cf8, 0xc4ac5665,
   0xf4292244, 0x432aff97, 0xab9423a7, 0xfc93a039,
   0x655b59c3, 0x8f0ccc92, 0xffeff47d, 0x85845dd1,
   0x6fa87e4f, 0xfe2ce6e0, 0xa3014314, 0x4e0811a1,
   0xf7537e82, 0xbd3af235, 0x2ad7d2bb, 0xeb86d391]

/-- The MD5 per-round shift amounts `s[0..63]`. -/
def md5S : List Nat :=
  [7, 12, 17, 22, 7, 12, 17, 22, 7, 12, 17, 22, 7, 12, 17, 22,
   5, 9, 14, 20, 5, 9, 14, 20, 5, 9, 14, 20, 5, 9, 14, 20,
   4, 11, 16, 23, 4, 11, 16, 23, 4, 11, 16, 23, 4, 11, 16, 23,
   6, 10, 15, 21, 6, 10, 15, 21, 6, 10, 15, 21, 6, 10, 15, 21]

/-- MD5 message padding: `0x80`, zeros to 56 mod 64, then the bit length
as 8 little-endian bytes. -/
def md5Pad (msg : List Nat) : List Nat :=
  let lenBits := msg.length * 8 % 2 ^ 64
  let zeros := (119 - msg.length % 64) % 64
  msg ++ 128 :: List.replicate zeros 0 ++
    [lenBits % 256, lenBits / 2 ^ 8 % 256, lenBits / 2 ^ 16 % 256,
     lenBits / 2 ^ 24 % 256, lenBits / 2 ^ 32 % 256, lenBits / 2 ^ 40 % 256,
     lenBits / 2 ^ 48 % 256, lenBits / 2 ^ 56 % 256]

/-- Little-endian 32-bit word from 4 bytes of a block. -/
def md5Word (block : List Nat) (j : Nat) : Nat :=
  block.getD (4 * j) 0 + 256 * block.getD (4 * j + 1) 0 +
    65536 * block.getD (4 * j + 2) 0 + 16777216 * block.getD (4 * j + 3) 0

/-- One MD5 round on the state `(a, b, c, d)`. -/
def md5Round (block : List Nat) (st : Nat × Nat × Nat × Nat) (i : Nat) :
    Nat × Nat × Nat × Nat :=
  let a := st.1
  let b := st.2.1
  let c := st.2.2.1
  let d := st.2.2.2
  let f :=
    if i < 16 then b &&& c ||| (4294967295 ^^^ b) &&& d
    else if i < 32 then d &&& b ||| (4294967295 ^^^ d) &&& c
    else if i < 48 then b ^^^ c ^^^ d
    else c ^^^ (b ||| (4294967295 ^^^ d))
  let g :=
    if i < 16 then i
    else if i < 32 then (5 * i + 1) % 16
    else if i < 48 then (3 * i + 5) % 16
    else 7 * i % 16
  let tmp := (a + f + md5K.getD i 0 + md5Word block g) % M32
  (d, add32 b (rotl32 tmp (md5S.getD i 0)), b, c)

/-- MD5 compression of one 64-byte block. -/
def md5Compress (st : Nat × Nat × Nat × Nat) (block : List Nat) :
    Nat × Nat × Nat × Nat :=
  let r := (List.range 64).foldl (md5Round block) st
  (add32 st.1 r.1, add32 st.2.1 r.2.1, add32 st.2.2.1 r.2.2.1,
   add32 st.2.2.2 r.2.2.2)

/-- Process a padded message 64 bytes at a time. -/
def md5Blocks (st : Nat × Nat × Nat × Nat) : List Nat → Nat × Nat × Nat × Nat
  | [] => st
  | b :: rest =>
    md5Blocks (md5Compress st ((b :: rest).take 64)) ((b :: rest).drop 64)
  termination_by l => l.length
  decreasing_by simp [List.length_drop]; omega

/-- Little-endian bytes of a 32-bit word. -/
def wordLE (x : Nat) : List Nat :=
  [x % 256, x / 256 % 256, x / 65536 % 256, x / 16777216 % 256]

/-- Lowercase hex rendering of a byte string (`hexdigest()`). -/
def hexOfBytes : List Nat → List Char
  | [] => []
  | b :: bs => hexChar (b / 16) :: hexChar (b % 16) :: hexOfBytes bs

/-- `hashlib.md5(msg).hexdigest()` over a byte string. -/
def md5Hex (msg : List Nat) : List Char :=
  let st := md5Blocks (0x67452301, 0xefcdab89, 0x98badcfe, 0x10325476)
    (md5Pad msg)
  hexOfBytes (wordLE st.1 ++ wordLE st.2.1 ++ wordLE st.2.2.1 ++
    wordLE st.2.2.2)

/-- `calculate_project_hash` (`project_monitor.py` lines 125-132): the
empty sentinel `""` for an empty list, otherwise the MD5 hex digest of
the canonical JSON of the first five records. -/
def calculate_project_hash (mods : List ModRecord) : List Char :=
  if mods.isEmpty then []
  else md5Hex (utf8Bytes (stateString (mods.take 5)))

/-- `"## Recent Activity"`, the region-start string searched on lines
173-179. -/
def raPat : List Char := "## Recent Activity".toList

/-- `"\n## "`, the first region-end marker (line 186). -/
def nlH2 : List Char := "\n## ".toList

/-- `"\n# "`, the second region-end marker (line 186). -/
def nlH1 : List Char := "\n# ".toList

/-- `"\n*Last scan:"`, the trailing-timestamp cue (line 193). -/
def lastScanPat : List Char := "\n*Last scan:".toList

/-- `"## Context"`, the insertion anchor (line 209). -/
def ctxPat : List Char := "## Context".toList

/-- The region-end computation of `update_markdown_file`
(`project_monitor.py` lines 181-200): starting from the region start `s`,
the next `"\n## "` (or, failing that, `"\n# "`) in `content[s:]` after
position 1, default end of document; then, if a `"\n*Last scan:"` line is
found and the position just past its terminating newline is smaller, that
position instead. -/
def regionEndHeading (content : List Char) (s : Nat) : Nat :=
  match findFrom nlH2 (content.drop s) 1 with
  | some i => s + i
  | none =>
    match findFrom nlH1 (content.drop s) 1 with
    | some i => s + i
    | none => content.length

/-- The last-scan refinement of the region end (lines 192-200). -/
def regionEnd (content : List Char) (s : Nat) : Nat :=
  let e1 := regionEndHeading content s
  match findFrom lastScanPat (content.drop s) 0 with
  | some ls =>
    match findFrom ['\n'] (content.drop s) (ls + 1) with
    | some le => if s + le + 1 < e1 then s + le + 1 else e1
    | none => e1
  | none => e1

/-- The pure document transformation of `update_markdown_file`
(`project_monitor.py` lines 173-216): if `"## Recent Activity"` occurs,
replace `content[start..regionEnd)` with the rendered section (the
source's `if end_idx < len(content)` guard is the same as appending
`content.drop end_idx`, which is `[]` in the guarded-out case); otherwise
insert before the first `"## Context"`, or append at the end after
ensuring a trailing newline. -/
def update_markdown_file (content activity : List Char) : List Char :=
  match findFrom raPat content 0 with
  | some s => content.take s ++ activity ++ content.drop (regionEnd content s)
  | none =>
    match findFrom ctxPat content 0 with
    | some i => content.take i ++ activity ++ '\n' :: '\n' :: content.drop i
    | none =>
      (if content.getLast? = some '\n' then content else content ++ ['\n']) ++
        '\n' :: activity

/-- One project's state record (`project_monitor.py` lines 247-251 and
260-265). -/
structure StateEntry where
  hash : List Char
  last_checked : Nat
  last_updated : Option Nat
  modifications : List ModRecord
deriving DecidableEq

/-- `previous_state.get(project_name, {}).get('hash', '')`
(`project_monitor.py` line 243). -/
def prevHash (prev : List (List Char × StateEntry)) (name : List Char) :
    List Char :=
  match prev.lookup name with
  | some e => e.hash
  | none => []

/-- `process_project` (`project_monitor.py` lines 228-265), with the scan
result passed in: returns the new state entry (or `none` when the scan
was empty, line 235-237) and whether `update_markdown_file` was invoked
(lines 253-258).  `t` models `time.time()` at whole-second resolution. -/
def process_project (mods : List ModRecord) (prevH : List Char) (t : Nat) :
    Option StateEntry × Bool :=
  if mods.isEmpty then (none, false)
  else
    let h := calculate_project_hash mods
    if h = prevH then (some ⟨h, t, none, mods⟩, false)
    else (some ⟨h, t, some t, mods⟩, true)

/-- The per-project loop of `main` (`project_monitor.py` lines 286-294):
`new_state` starts empty and a project is added only when
`process_project` returned a result. -/
def mainPass (projects : List (List Char))
    (scan : List Char → List ModRecord)
    (prev : List (List Char × StateEntry)) (t : Nat) :
    List (List Char × StateEntry) :=
  projects.foldl
    (fun acc name =>
      match (process_project (scan name) (prevHash prev name) t).1 with
      | some e => acc ++ [(name, e)]
      | none => acc)
    []

theorem hexChar_mem (n : Nat) : hexChar n ∈ hexList := by
  unfold hexChar
  rw [List.getD_eq_getElem?_getD]
  cases h : hexList[n]? with
  | none => simp [h]; decide
  | some a =>
    have := List.getElem?_mem h
    simpa [h] using this

theorem hexOfBytes_length (bs : List Nat) :
    (hexOfBytes bs).length = 2 * bs.length := by
  induction bs with
  | nil => simp [hexOfBytes]
  | cons b bs ih => simp [hexOfBytes, ih]; omega

theorem hexOfBytes_mem {c : Char} : ∀ {bs : List Nat},
    c ∈ hexOfBytes bs → c ∈ hexList := by
  intro bs
  induction bs with
  | nil => simp [hexOfBytes]
  | cons b bs ih =>
    intro h
    simp only [hexOfBytes, List.mem_cons] at h
    rcases h with rfl | rfl | h
    · exact hexChar_mem _
    · exact hexChar_mem _
    · exact ih h

theorem md5Hex_length (msg : List Nat) : (md5Hex msg).length = 32 := by
  unfold md5Hex
  rw [hexOfBytes_length]
  simp [wordLE]

theorem md5Hex_mem {c : Char} {msg : List Nat} (h : c ∈ md5Hex msg) :
    c ∈ hexList := hexOfBytes_mem h

/-- Claim C7: for the empty ScanResult, `calculate_project_hash` returns
the fixed sentinel `""` (modelled as the empty character list) by the
early return on line 127-128, without hashing anything.  The Lean
embedding is a total function, so no exception is possible. -/
theorem claim_C7_empty_sentinel :
    calculate_project_hash [] = [] := by
  rfl

/-- Claim C4: the fingerprint is deterministic, and it is a function of
the first five records only: two modification lists with the same
`take 5` prefix (same path, timestamp and size in the same order) hash
identically, whatever the lists contain beyond the top five. -/
theorem claim_C4_fingerprint_top5 :
    (∀ l : List ModRecord,
      calculate_project_hash l = calculate_project_hash l) ∧
    ∀ l1 l2 : List ModRecord, l1.take 5 = l2.take 5 →
      calculate_project_hash l1 = calculate_project_hash l2 := by
  refine ⟨fun l => rfl, ?_⟩
  intro l1 l2 h
  by_cases h1 : l1 = []
  · subst h1
    have h2 : l2 = [] := by
      have := h.symm
      simp only [List.take_nil, List.take_eq_nil_iff] at this
      rcases this with h5 | h2
      · exact absurd h5 (by decide)
      · exact h2
    subst h2
    rfl
  · have h2 : l2 ≠ [] := by
      intro hc
      subst hc
      simp only [List.take_nil, List.take_eq_nil_iff] at h
      rcases h with h5 | hc
      · exact absurd h5 (by decide)
      · exact h1 hc
    unfold calculate_project_hash
    rw [if_neg (by simpa [List.isEmpty_iff] using h1),
        if_neg (by simpa [List.isEmpty_iff] using h2), h]

/-- Claim C4 witness: two concrete six-record lists sharing their first
five records but differing (and differently ordered) beyond them. -/
theorem claim_C4_witness :
    (([⟨"a.py".toList, 500, 10⟩, ⟨"b.py".toList, 400, 20⟩,
       ⟨"c.py".toList, 300, 30⟩, ⟨"d.py".toList, 200, 40⟩,
       ⟨"e.py".toList, 100, 50⟩, ⟨"f.py".toList, 90, 60⟩] :
        List ModRecord).take 5 =
      ([⟨"a.py".toList, 500, 10⟩, ⟨"b.py".toList, 400, 20⟩,
        ⟨"c.py".toList, 300, 30⟩, ⟨"d.py".toList, 200, 40⟩,
        ⟨"e.py".toList, 100, 50⟩, ⟨"z.py".toList, 80, 70⟩,
        ⟨"y.py".toList, 85, 80⟩] : List ModRecord).take 5) ∧
    calculate_project_hash
      [⟨"a.py".toList, 500, 10⟩, ⟨"b.py".toList, 400, 20⟩,
       ⟨"c.py".toList, 300, 30⟩, ⟨"d.py".toList, 200, 40⟩,
       ⟨"e.py".toList, 100, 50⟩, ⟨"f.py".toList, 90, 60⟩] =
    calculate_project_hash
      [⟨"a.py".toList, 500, 10⟩, ⟨"b.py".toList, 400, 20⟩,
       ⟨"c.py".toList, 300, 30⟩, ⟨"d.py".toList, 200, 40⟩,
       ⟨"e.py".toList, 100, 50⟩, ⟨"z.py".toList, 80, 70⟩,
       ⟨"y.py".toList, 85, 80⟩] :=
  ⟨by decide, claim_C4_fingerprint_top5.2 _ _ (by decide)⟩

/-- Claim C10: for a non-empty modification list the fingerprint is a
32-character string of lowercase hexadecimal digits (an MD5 hex digest),
hence never equal to the empty-ScanResult sentinel `""`. -/
theorem claim_C10_hash_shape :
    ∀ mods : List ModRecord, mods ≠ [] →
      (calculate_project_hash mods).length = 32 ∧
      (∀ ch ∈ calculate_project_hash mods, ch ∈ hexList) ∧
      calculate_project_hash mods ≠ [] := by
  intro mods h
  have hne : mods.isEmpty = false := by simpa [List.isEmpty_iff] using h
  unfold calculate_project_hash
  rw [hne]
  simp only [Bool.false_eq_true, if_false]
  refine ⟨md5Hex_length _, fun ch hch => md5Hex_mem hch, ?_⟩
  intro hc
  have := md5Hex_length (utf8Bytes (stateString (mods.take 5)))
  rw [hc] at this
  simp at this

/-- Claim C10 witness: a concrete singleton scan result. -/
theorem claim_C10_witness :
    (([⟨"a.py".toList, 1700000000, 2048⟩] : List ModRecord) ≠ []) ∧
    ((calculate_project_hash [⟨"a.py".toList, 1700000000, 2048⟩]).length = 32 ∧
     (∀ ch ∈ calculate_project_hash [⟨"a.py".toList, 1700000000, 2048⟩],
        ch ∈ hexList) ∧
     calculate_project_hash [⟨"a.py".toList, 1700000000, 2048⟩] ≠ []) :=
  ⟨by decide, claim_C10_hash_shape _ (by decide)⟩

/-- Claim C9: `should_exclude_path` returns `true` whenever some path
segment lies in `EXCLUDE_DIRS` (whatever the extension), and also
whenever the extension lies in `EXCLUDE_EXTENSIONS`. -/
theorem claim_C9_path_filter :
    ∀ p : List Char,
      ((∃ seg ∈ pathParts p, seg ∈ EXCLUDE_DIRS) →
        should_exclude_path p = true) ∧
      (splitextExt p ∈ EXCLUDE_EXTENSIONS → should_exclude_path p = true) := by
  intro p
  constructor
  · intro ⟨seg, hseg, hmem⟩
    unfold should_exclude_path
    rw [Bool.or_eq_true]
    left
    rw [List.any_eq_true]
    exact ⟨seg, hseg, List.elem_iff.mpr hmem⟩
  · intro hmem
    unfold should_exclude_path
    rw [Bool.or_eq_true]
    right
    exact List.elem_iff.mpr hmem

/-- Claim C9 witness: `src/node_modules/a.js` is excluded through its
directory segment despite its non-excluded extension, and `logs/app.log`
through its extension. -/
theorem claim_C9_witness :
    ((∃ seg ∈ pathParts "src/node_modules/a.js".toList,
        seg ∈ EXCLUDE_DIRS) ∧
      should_exclude_path "src/node_modules/a.js".toList = true) ∧
    (splitextExt "logs/app.log".toList ∈ EXCLUDE_EXTENSIONS ∧
      should_exclude_path "logs/app.log".toList = true) :=
  ⟨⟨by decide, (claim_C9_path_filter _).1 (by decide)⟩,
   ⟨by decide, (claim_C9_path_filter _).2 (by decide)⟩⟩

/-- The records surviving the path filter, in encounter order
(`project_monitor.py` line 97). -/
def eligibleRecords (files : List ModRecord) : List ModRecord :=
  files.filter (fun f => !should_exclude_path f.path)

/-- Claim C8: the scan result is the stable descending-by-timestamp sort
of the eligible records truncated to `limit`: it is sorted descending
with ties in encounter order (for any relation `R` holding pairwise on
the eligible records in encounter order, the result is pairwise ordered
by `descTie R`), its length is at most `limit`, the sort is a permutation
of its input, and on three files with timestamps 300 > 200 > 100 and
`limit = 2` exactly the two most recent files come back in descending
order. -/
theorem claim_C8_scan_order :
    ∀ (files : List ModRecord) (limit : Nat)
      (R : ModRecord → ModRecord → Prop),
      (eligibleRecords files).Pairwise R →
      ((get_file_modifications files limit).Pairwise (descTie R) ∧
       (get_file_modifications files limit).length ≤ limit ∧
       (sortDescByTime (eligibleRecords files)).Perm
         (eligibleRecords files) ∧
       get_file_modifications
         [⟨"old.py".toList, 100, 1⟩, ⟨"new.py".toList, 300, 2⟩,
          ⟨"mid.py".toList, 200, 3⟩] 2 =
         [⟨"new.py".toList, 300, 2⟩, ⟨"mid.py".toList, 200, 3⟩]) := by
  intro files limit R hR
  refine ⟨?_, ?_, sortDescByTime_perm _, by decide⟩
  · exact List.Pairwise.sublist (List.take_sublist _ _)
      (sortDescByTime_pairwise hR)
  · unfold get_file_modifications
    simp [List.length_take]

/-- Claim C8 witness: the Pairwise hypothesis discharged with the
timestamp order itself on the three-file example. -/
theorem claim_C8_witness :
    (eligibleRecords
        [⟨"old.py".toList, 100, 1⟩, ⟨"new.py".toList, 300, 2⟩,
         ⟨"mid.py".toList, 200, 3⟩]).Pairwise
      (fun a b : ModRecord => a.size ≤ b.size) ∧
    get_file_modifications
        [⟨"old.py".toList, 100, 1⟩, ⟨"new.py".toList, 300, 2⟩,
         ⟨"mid.py".toList, 200, 3⟩] 2 =
      [⟨"new.py".toList, 300, 2⟩, ⟨"mid.py".toList, 200, 3⟩] :=
  ⟨by decide,
   (claim_C8_scan_order
     [⟨"old.py".toList, 100, 1⟩, ⟨"new.py".toList, 300, 2⟩,
      ⟨"mid.py".toList, 200, 3⟩] 2
     (fun a b : ModRecord => a.size ≤ b.size) (by decide)).2.2.2⟩

/-- The per-project accumulator of `main` unfolds to a `filterMap`. -/
theorem mainPass_eq_filterMap (projects : List (List Char))
    (scan : List Char → List ModRecord)
    (prev : List (List Char × StateEntry)) (t : Nat) :
    mainPass projects scan prev t =
      projects.filterMap (fun name =>
        ((process_project (scan name) (prevHash prev name) t).1).map
          (fun e => (name, e))) := by
  unfold mainPass
  suffices h : ∀ acc : List (List Char × StateEntry),
      projects.foldl
        (fun acc name =>
          match (process_project (scan name) (prevHash prev name) t).1 with
          | some e => acc ++ [(name, e)]
          | none => acc)
        acc =
      acc ++ projects.filterMap (fun name =>
        ((process_project (scan name) (prevHash prev name) t).1).map
          (fun e => (name, e))) by
    simpa using h []
  induction projects with
  | nil => intro acc; simp
  | cons q qs ih =>
    intro acc
    simp only [List.foldl_cons, List.filterMap_cons]
    cases hq : (process_project (scan q) (prevHash prev q) t).1 with
    | none => simpa [hq] using ih acc
    | some e =>
      simp only [hq, Option.map_some]
      rw [ih (acc ++ [(q, e)])]
      simp

theorem lookup_filterMap_none {P : List Char}
    (scan : List Char → List ModRecord)
    (prev : List (List Char × StateEntry)) (t : Nat)
    (hP : scan P = []) :
    ∀ projects : List (List Char),
      (projects.filterMap (fun name =>
        ((process_project (scan name) (prevHash prev name) t).1).map
          (fun e => (name, e)))).lookup P = none := by
  intro projects
  induction projects with
  | nil => rfl
  | cons q qs ih =>
    by_cases hq : q = P
    · subst hq
      rw [List.filterMap_cons_none]
      · exact ih
      · rw [hP]
        rfl
    · cases hqv : (process_project (scan q) (prevHash prev q) t).1 with
      | none =>
        rw [List.filterMap_cons_none]
        · exact ih
        · rw [hqv]
          rfl
      | some e =>
        rw [List.filterMap_cons_some (b := (q, e))]
        · rw [List.lookup_cons]
          have hbeq : (P == q) = false := by
            rw [beq_eq_false_iff_ne]
            exact fun hc => hq hc.symm
          rw [hbeq]
          exact ih
        · rw [hqv]
          rfl

/-- Claim C6 (amended): when a project's scan comes back empty,
`process_project` returns no state entry and does not touch the markdown
file, the pass's new state contains no entry at all for that project
(hence no retained `last_checked`), and every project is still visited:
the new state is exactly the `filterMap` of `process_project` over the
full project list. -/
theorem claim_C6_empty_scan_drops_state :
    ∀ (projects : List (List Char)) (scan : List Char → List ModRecord)
      (prev : List (List Char × StateEntry)) (t : Nat) (P : List Char),
      P ∈ projects → scan P = [] →
      process_project (scan P) (prevHash prev P) t = (none, false) ∧
      (mainPass projects scan prev t).lookup P = none ∧
      mainPass projects scan prev t =
        projects.filterMap (fun name =>
          ((process_project (scan name) (prevHash prev name) t).1).map
            (fun e => (name, e))) := by
  intro projects scan prev t P hmem hP
  refine ⟨by rw [hP]; rfl, ?_, mainPass_eq_filterMap projects scan prev t⟩
  rw [mainPass_eq_filterMap]
  exact lookup_filterMap_none scan prev t hP projects

/-- Project list, scan oracle and prior state for the claim C6 concrete
scenario: project `P` scans empty while project `Q` has one record, and
the prior state holds an entry for `P`. -/
def c6projects : List (List Char) := ["P".toList, "Q".toList]

def c6scan : List Char → List ModRecord :=
  fun name =>
    if name = "Q".toList then [⟨"a.py".toList, 1700000000, 2048⟩] else []

def c6prev : List (List Char × StateEntry) :=
  [("P".toList, ⟨"deadbeef".toList, 7, none, []⟩)]

/-- Claim C6 counterexample: the claim says project `P`'s state entry is
retained with an updated `last_checked` when its scan is empty; in fact
the new state produced by the pass has no entry for `P` at all (the prior
entry is dropped). -/
theorem claim_C6_counterexample :
    (mainPass c6projects c6scan c6prev 9).lookup "P".toList = none ∧
    c6prev.lookup "P".toList =
      some ⟨"deadbeef".toList, 7, none, []⟩ := by
  constructor
  · rw [mainPass_eq_filterMap]
    exact lookup_filterMap_none c6scan c6prev 9 (by decide) c6projects
  · rfl

/-- Claim C6 witness for the amended statement, on the same scenario. -/
theorem claim_C6_witness :
    ("P".toList ∈ c6projects ∧ c6scan "P".toList = []) ∧
    (process_project (c6scan "P".toList) (prevHash c6prev "P".toList) 9 =
        (none, false) ∧
      (mainPass c6projects c6scan c6prev 9).lookup "P".toList = none ∧
      mainPass c6projects c6scan c6prev 9 =
        c6projects.filterMap (fun name =>
          ((process_project (c6scan name) (prevHash c6prev name) 9).1).map
            (fun e => (name, e)))) :=
  ⟨⟨by decide, by decide⟩,
   claim_C6_empty_scan_drops_state c6projects c6scan c6prev 9 "P".toList
     (by decide) (by decide)⟩

theorem regionEndHeading_bounds {content : List Char} {s : Nat}
    (hs : s < content.length) :
    s ≤ regionEndHeading content s ∧
      regionEndHeading content s ≤ content.length := by
  have hrlen : (content.drop s).length = content.length - s :=
    List.length_drop s content
  unfold regionEndHeading
  split
  · rename_i i h2
    have hi := findFrom_lt_length h2 (by decide)
    omega
  · split
    · rename_i i h1
      have hi := findFrom_lt_length h1 (by decide)
      omega
    · omega

theorem regionEnd_bounds {content : List Char} {s : Nat}
    (hs : s < content.length) :
    s ≤ regionEnd content s ∧ regionEnd content s ≤ content.length := by
  have hrlen : (content.drop s).length = content.length - s :=
    List.length_drop s content
  have he1 := regionEndHeading_bounds hs
  unfold regionEnd
  split
  · rename_i ls hls
    split
    · rename_i le hle
      have hlel := findFrom_lt_length hle (by decide)
      simp only []
      split <;> omega
    · exact he1
  · exact he1

/-- Claim C2: splicing never alters a byte outside the addressed region.
When the Recent Activity region is found at position `s`, the splice
produces exactly `prefix ++ rendered ++ suffix` where the prefix is the
document text before `s` and the suffix the text from the computed region
end; the text before the region start and from the region end onward are
bit-identical before and after, and the region is well-formed
(`s ≤ regionEnd ≤ length`). -/
theorem claim_C2_frame :
    ∀ (content activity : List Char) (s : Nat),
      findFrom raPat content 0 = some s →
      (update_markdown_file content activity =
        content.take s ++ activity ++ content.drop (regionEnd content s)) ∧
      (update_markdown_file content activity).take s = content.take s ∧
      (update_markdown_file content activity).drop (s + activity.length) =
        content.drop (regionEnd content s) ∧
      s ≤ regionEnd content s ∧ regionEnd content s ≤ content.length := by
  intro content activity s h
  have hs : s < content.length := findFrom_lt_length h (by decide)
  have heq : update_markdown_file content activity =
      content.take s ++ activity ++ content.drop (regionEnd content s) := by
    unfold update_markdown_file
    rw [h]
  have htl : (content.take s).length = s := by
    rw [List.length_take]
    omega
  refine ⟨heq, ?_, ?_, regionEnd_bounds hs⟩
  · rw [heq, List.append_assoc]
    exact List.take_left' htl
  · rw [heq]
    exact List.drop_left' (by rw [List.length_append, htl])

/-- Claim C2 witness: a concrete document whose region sits between
other sections. -/
theorem claim_C2_witness :
    (findFrom raPat "# A\nintro\n## Recent Activity\nold\n## B\ntail\n".toList
        0 = some 10) ∧
    ((update_markdown_file
        "# A\nintro\n## Recent Activity\nold\n## B\ntail\n".toList
        "NEW".toList =
      ("# A\nintro\n## Recent Activity\nold\n## B\ntail\n".toList).take 10 ++
        "NEW".toList ++
        ("# A\nintro\n## Recent Activity\nold\n## B\ntail\n".toList).drop
          (regionEnd
            "# A\nintro\n## Recent Activity\nold\n## B\ntail\n".toList 10)) ∧
      (update_markdown_file
          "# A\nintro\n## Recent Activity\nold\n## B\ntail\n".toList
          "NEW".toList).take 10 =
        ("# A\nintro\n## Recent Activity\nold\n## B\ntail\n".toList).take 10 ∧
      (update_markdown_file
          "# A\nintro\n## Recent Activity\nold\n## B\ntail\n".toList
          "NEW".toList).drop (10 + ("NEW".toList).length) =
        ("# A\nintro\n## Recent Activity\nold\n## B\ntail\n".toList).drop
          (regionEnd
            "# A\nintro\n## Recent Activity\nold\n## B\ntail\n".toList 10) ∧
      10 ≤ regionEnd
          "# A\nintro\n## Recent Activity\nold\n## B\ntail\n".toList 10 ∧
      regionEnd "# A\nintro\n## Recent Activity\nold\n## B\ntail\n".toList
          10 ≤
        ("# A\nintro\n## Recent Activity\nold\n## B\ntail\n".toList).length) :=
  ⟨by decide,
   claim_C2_frame "# A\nintro\n## Recent Activity\nold\n## B\ntail\n".toList
     "NEW".toList 10 (by decide)⟩

/-- The explicit start-marker string for the Recent Activity region named
by the spec's document format, `MARKER:<region>:START`. -/
def startMarker : List Char := "MARKER:Recent Activity:START".toList

/-- The explicit end-marker string, `MARKER:<region>:END`. -/
def endMarker : List Char := "MARKER:Recent Activity:END".toList

/-- Marker-mode splicing as the spec's words describe it (following the
spec, for comparison with the code): when both marker strings occur,
replace everything strictly between them with the new content and leave
everything outside untouched. -/
def specMarkerSplice (d c : List Char) : List Char :=
  match findFrom startMarker d 0 with
  | some i =>
    match findFrom endMarker d (i + startMarker.length) with
    | some j => d.take (i + startMarker.length) ++ c ++ d.drop j
    | none => d
  | none => d

/-- A document containing both explicit marker strings (and no
`## Recent Activity` heading and no `## Context` anchor). -/
def c3doc : List Char :=
  "# T\nMARKER:Recent Activity:START\nOLD\nMARKER:Recent Activity:END\nTail\n".toList

/-- Claim C3 counterexample: on a document carrying both marker strings,
the code does not replace the text between them (the result differs from
the spec's marker-mode result; the code appends a fresh block at the end
instead, leaving `OLD` in place between the markers). -/
theorem claim_C3_counterexample :
    update_markdown_file c3doc "NEW".toList ≠
      specMarkerSplice c3doc "NEW".toList ∧
    update_markdown_file c3doc "NEW".toList = c3doc ++ '\n' :: "NEW".toList := by
  constructor
  · decide
  · decide

/-- Claim C3 (amended): `update_markdown_file` does not recognize the
explicit `MARKER:<region>:START` / `MARKER:<region>:END` strings at all.
Even when both are present, region location is driven solely by the
`## Recent Activity` heading heuristic: when that heading (and the
`## Context` anchor) is absent the marker block is ignored and the
rendered section is appended at the end after newline normalization,
leaving the marker block and everything between the markers untouched as
a prefix of the result. -/
theorem claim_C3_markers_not_recognized :
    ∀ (d c : List Char) (i j : Nat),
      findFrom startMarker d 0 = some i →
      findFrom endMarker d 0 = some j →
      findFrom raPat d 0 = none →
      findFrom ctxPat d 0 = none →
      update_markdown_file d c =
        (if d.getLast? = some '\n' then d else d ++ ['\n']) ++ '\n' :: c := by
  intro d c i j hsm hem hra hctx
  unfold update_markdown_file
  rw [hra, hctx]

/-- Claim C3 witness: the amended behaviour on `c3doc`. -/
theorem claim_C3_witness :
    (findFrom startMarker c3doc 0 = some 4 ∧
     findFrom endMarker c3doc 0 = some 37 ∧
     findFrom raPat c3doc 0 = none ∧
     findFrom ctxPat c3doc 0 = none) ∧
    update_markdown_file c3doc "NEW".toList =
      (if c3doc.getLast? = some '\n' then c3doc else c3doc ++ ['\n']) ++
        '\n' :: "NEW".toList :=
  ⟨⟨by decide, by decide, by decide, by decide⟩,
   claim_C3_markers_not_recognized c3doc "NEW".toList 4 37 (by decide)
     (by decide) (by decide) (by decide)⟩

/-- Claim C5 (amended): insertion mode.  When the region is absent the
code inserts the rendered section (not a marker-delimited block — see the
counterexample) immediately before the first `## Context` heading,
followed by a blank line; with no anchor either, it appends the section
at the end, first ensuring the document ends with a newline. -/
theorem claim_C5_insertion :
    ∀ d c : List Char, findFrom raPat d 0 = none →
      (∀ i, findFrom ctxPat d 0 = some i →
        update_markdown_file d c =
          d.take i ++ c ++ '\n' :: '\n' :: d.drop i) ∧
      (findFrom ctxPat d 0 = none →
        update_markdown_file d c =
          (if d.getLast? = some '\n' then d else d ++ ['\n']) ++
            '\n' :: c) := by
  intro d c hra
  constructor
  · intro i hctx
    unfold update_markdown_file
    rw [hra, hctx]
  · intro hctx
    unfold update_markdown_file
    rw [hra, hctx]

/-- A document with a `## Context` anchor and no Recent Activity region. -/
def c5doc : List Char := "# T\n\n## Context\nStuff\n".toList

/-- A rendered Recent Activity section over one record. -/
def c5act : List Char :=
  format_modifications [⟨"a.py".toList, 1700000000, 2048⟩]
    "2023-11-14 22:13:20".toList

/-- Claim C5 counterexample: the block the code inserts before the
anchor is not marker-delimited — the spliced document contains neither
`MARKER:Recent Activity:START` nor `MARKER:Recent Activity:END`. -/
theorem claim_C5_counterexample :
    update_markdown_file c5doc c5act =
      c5doc.take 5 ++ c5act ++ '\n' :: '\n' :: c5doc.drop 5 ∧
    findFrom startMarker (update_markdown_file c5doc c5act) 0 = none ∧
    findFrom endMarker (update_markdown_file c5doc c5act) 0 = none := by
  refine ⟨by decide, by decide, by decide⟩

/-- Claim C5 witness: the amended behaviour, on a document with the
anchor present and on one with no anchor. -/
theorem claim_C5_witness :
    (findFrom raPat c5doc 0 = none ∧ findFrom ctxPat c5doc 0 = some 5 ∧
      update_markdown_file c5doc c5act =
        c5doc.take 5 ++ c5act ++ '\n' :: '\n' :: c5doc.drop 5) ∧
    (findFrom raPat "# T\nbody".toList 0 = none ∧
      findFrom ctxPat "# T\nbody".toList 0 = none ∧
      update_markdown_file "# T\nbody".toList c5act =
        (if ("# T\nbody".toList).getLast? = some '\n' then "# T\nbody".toList
         else "# T\nbody".toList ++ ['\n']) ++ '\n' :: c5act) :=
  ⟨⟨by decide, by decide,
    (claim_C5_insertion c5doc c5act (by decide)).1 5 (by decide)⟩,
   ⟨by decide, by decide,
    (claim_C5_insertion "# T\nbody".toList c5act (by decide)).2 (by decide)⟩⟩

/-- A document whose Recent Activity region carries a stale
`*Last scan:` line followed by stray text before the next heading. -/
def c1doc : List Char :=
  "X\n## Recent Activity\nold\n*Last scan: y*\nsome text\n## Next\n".toList

/-- A rendered Recent Activity section over one record. -/
def c1act : List Char :=
  format_modifications [⟨"a.py".toList, 1700000000, 2048⟩]
    "2023-11-14 22:13:20".toList

/-- Claim C1 counterexample: splicing `c1doc` twice with the same
rendered content differs from splicing it once — the second application
deletes the stray text between the region's trailing `*Last scan:` line
and the next heading. -/
theorem claim_C1_counterexample :
    update_markdown_file (update_markdown_file c1doc c1act) c1act ≠
      update_markdown_file c1doc c1act := by
  decide

theorem digitChar_mem (n : Nat) : digitChar n ∈ digitList := by
  unfold digitChar
  rw [List.getD_eq_getElem?_getD]
  cases h : digitList[n]? with
  | none => simp [h]; decide
  | some a =>
    have := List.getElem?_mem h
    simpa [h] using this

theorem natDigitsAux_mem {c : Char} :
    ∀ {fuel n : Nat}, c ∈ natDigitsAux fuel n → c ∈ digitList := by
  intro fuel
  induction fuel with
  | zero =>
    intro n h
    simp only [natDigitsAux, List.mem_singleton] at h
    subst h
    exact digitChar_mem n
  | succ fuel ih =>
    intro n h
    simp only [natDigitsAux] at h
    split at h
    · simp only [List.mem_singleton] at h
      subst h
      exact digitChar_mem n
    · rw [List.mem_append] at h
      rcases h with h | h
      · exact ih h
      · simp only [List.mem_singleton] at h
        subst h
        exact digitChar_mem _

theorem natDigits_lineFree (n : Nat) : '\n' ∉ natDigits n := by
  intro h
  have := natDigitsAux_mem h
  revert this
  decide

theorem padZ_lineFree {w : Nat} {s : List Char} (h : '\n' ∉ s) :
    '\n' ∉ padZ w s := by
  intro hmem
  unfold padZ at hmem
  rw [List.mem_append] at hmem
  rcases hmem with hmem | hmem
  · rw [List.mem_replicate] at hmem
    exact absurd hmem.2 (by decide)
  · exact h hmem

theorem fmtTime_lineFree (ts : Nat) : '\n' ∉ fmtTime ts := by
  unfold fmtTime
  intro h
  simp only [List.mem_append] at h
  rcases h with ((((((((((h | h) | h) | h) | h) | h) | h) | h) | h) | h) | h) <;>
    first
      | exact padZ_lineFree (natDigits_lineFree _) h
      | (revert h; decide)

theorem fmt1f_lineFree (t : Nat) : '\n' ∉ fmt1f t := by
  unfold fmt1f
  intro h
  simp only [List.mem_append, List.mem_singleton] at h
  rcases h with (h | h) | h
  · exact natDigits_lineFree _ h
  · revert h; decide
  · have := digitChar_mem (t % 10)
    rw [← h] at this
    revert this
    decide

theorem sizeStr_lineFree (n : Nat) : '\n' ∉ sizeStr n := by
  unfold sizeStr
  intro h
  split at h <;>
  · rw [List.mem_append] at h
    rcases h with h | h
    · exact fmt1f_lineFree _ h
    · revert h; decide

theorem truncPath_lineFree {p : List Char} (hp : '\n' ∉ p) :
    '\n' ∉ truncPath p := by
  unfold truncPath
  intro h
  split at h
  · rw [List.mem_append] at h
    rcases h with h | h
    · revert h; decide
    · exact hp (List.mem_of_mem_drop h)
  · exact hp h

theorem pmRow_lineFree {m : ModRecord} (hp : '\n' ∉ m.path) :
    '\n' ∉ pmRow m := by
  unfold pmRow
  intro h
  simp only [List.mem_append] at h
  rcases h with ((((((h | h) | h) | h) | h) | h) | h)
  · revert h; decide
  · exact fmtTime_lineFree _ h
  · revert h; decide
  · exact truncPath_lineFree hp h
  · revert h; decide
  · exact sizeStr_lineFree _ h
  · revert h; decide

theorem head_append {A : List Char} {ch : Char} (B : List Char)
    (h : ∃ t, A = ch :: t) : ∃ t, A ++ B = ch :: t := by
  obtain ⟨t, ht⟩ := h
  exact ⟨t ++ B, by rw [ht]; rfl⟩

theorem pmRow_head (m : ModRecord) : ∃ t, pmRow m = '|' :: t := by
  unfold pmRow
  have h0 : ∃ t, "| ".toList = '|' :: t := ⟨[' '], by decide⟩
  exact head_append _ (head_append _ (head_append _ (head_append _
    (head_append _ (head_append _ h0)))))

theorem joinNl_append_single :
    ∀ (rows : List (List Char)) (x : List Char), rows ≠ [] →
      joinNl (rows ++ [x]) = joinNl rows ++ '\n' :: x := by
  intro rows
  induction rows with
  | nil => intro x h; exact absurd rfl h
  | cons r rs ih =>
    intro x _
    cases rs with
    | nil => rfl
    | cons r' rs' =>
      have : joinNl ((r :: r' :: rs') ++ [x]) =
          r ++ '\n' :: joinNl ((r' :: rs') ++ [x]) := rfl
      rw [this, ih x (by simp), joinNl]
      simp

theorem not_prefixOf_cons₂ {a b c d : Char} {p l : List Char} (h : b ≠ d) :
    ¬ (a :: b :: p).isPrefixOf (c :: d :: l) = true := by
  intro hpre
  rw [List.isPrefixOf_iff_prefix] at hpre
  obtain ⟨t, ht⟩ := hpre
  rw [List.cons_append, List.cons_append] at ht
  injection ht with h1 h2
  injection h2 with h3 h4
  exact h h3

theorem rowTrain {pch : Char} {ptail : List Char} (hpch : pch ≠ '|') :
    ∀ rows : List (List Char), rows ≠ [] →
      (∀ r ∈ rows, (∃ t, r = '|' :: t) ∧ '\n' ∉ r) →
      (∃ t, joinNl rows = '|' :: t) ∧
      ∀ ext, noStartFrom ('\n' :: pch :: ptail) (joinNl rows) ext 0 := by
  intro rows
  induction rows with
  | nil => intro h; exact absurd rfl h
  | cons r rs ih =>
    intro _ hall
    have hr := hall r (List.mem_cons_self r rs)
    cases rs with
    | nil =>
      refine ⟨by simpa [joinNl] using hr.1, fun ext => ?_⟩
      show noStartFrom ('\n' :: pch :: ptail) r ext 0
      exact noStartFrom_of_head_notMem hr.2
    | cons r' rs' =>
      obtain ⟨⟨tJ, hJ⟩, nsJ⟩ :=
        ih (by simp) (fun q hq => hall q (List.mem_cons_of_mem r hq))
      constructor
      · obtain ⟨tr, htr⟩ := hr.1
        rw [joinNl]
        exact head_append _ ⟨tr, htr⟩
      · intro ext
        rw [joinNl]
        show noStartFrom ('\n' :: pch :: ptail)
          (r ++ ('\n' :: joinNl (r' :: rs'))) ext 0
        apply noStartFrom_append (Y := '\n' :: joinNl (r' :: rs'))
        · exact noStartFrom_of_head_notMem hr.2
        · show noStartFrom ('\n' :: pch :: ptail)
            (['\n'] ++ joinNl (r' :: rs')) ext 0
          apply noStartFrom_append (Y := joinNl (r' :: rs'))
          · apply noStartFrom_single
            rw [hJ]
            show ¬ ('\n' :: pch :: ptail).isPrefixOf
              ('\n' :: '|' :: (tJ ++ ext)) = true
            exact not_prefixOf_cons₂ hpch
          · exact nsJ ext

/-- The heading line of the rendered section, without its trailing
newline. -/
def hbSeg : List Char := "## Recent Activity (Last 20 Edits)".toList

def thSeg : List Char := "| Date & Time | File | Size |".toList

def tsSeg : List Char := "|-------------|------|------|".toList

/-- The text of the trailing last-scan line after its leading newline. -/
def ySeg (now : List Char) : List Char :=
  "*Last scan: ".toList ++ now ++ "*".toList

/-- Everything of the rendered section before the final
`\n*Last scan: ...*` line. -/
def pcOf (rows : List (List Char)) : List Char :=
  hbSeg ++ '\n' :: '\n' ::
    (thSeg ++ '\n' :: (tsSeg ++ '\n' :: (joinNl rows ++ ['\n'])))

theorem render_eq {mods : List ModRecord} (now : List Char)
    (h : mods ≠ []) :
    format_modifications mods now =
      pcOf (mods.map pmRow) ++ '\n' :: ySeg now := by
  obtain ⟨m, rest, rfl⟩ := List.exists_cons_of_ne_nil h
  unfold format_modifications
  rw [if_neg (by simp)]
  have hrows : (m :: rest).map pmRow = pmRow m :: rest.map pmRow := rfl
  rw [hrows]
  have h1 : joinNl ((pmRow m :: rest.map pmRow) ++ [lastScanLine now]) =
      joinNl (pmRow m :: rest.map pmRow) ++ '\n' :: lastScanLine now :=
    joinNl_append_single _ _ (by simp)
  show "## Recent Activity (Last 20 Edits)\n".toList ++ '\n' ::
      (thSeg ++ '\n' :: (tsSeg ++ '\n' ::
        joinNl ((pmRow m :: rest.map pmRow) ++ [lastScanLine now]))) =
    pcOf (pmRow m :: rest.map pmRow) ++ '\n' :: ySeg now
  rw [h1]
  have h2 : lastScanLine now = '\n' :: ySeg now := by
    unfold lastScanLine ySeg
    simp
  rw [h2]
  have h3 : "## Recent Activity (Last 20 Edits)\n".toList =
      hbSeg ++ ['\n'] := by decide
  rw [h3]
  unfold pcOf
  simp

theorem not_prefixOf_nl {pch ch : Char} {pt Z : List Char} (hne : pch ≠ ch)
    (hZ : ∃ t, Z = ch :: t) :
    ¬ ('\n' :: pch :: pt).isPrefixOf ('\n' :: Z) = true := by
  obtain ⟨t, rfl⟩ := hZ
  exact not_prefixOf_cons₂ hne

theorem prefixOf_cons_cons {a : Char} {p l : List Char} :
    (a :: p).isPrefixOf (a :: l) = p.isPrefixOf l := by
  simp [List.isPrefixOf]

theorem pcOf_noStart {pch : Char} {ptail ext : List Char}
    {rows : List (List Char)} (hp1 : pch ≠ '|') (hp2 : pch ≠ '\n')
    (hrows : rows ≠ [])
    (hall : ∀ r ∈ rows, (∃ t, r = '|' :: t) ∧ '\n' ∉ r)
    (hext : ∃ t, ext = '\n' :: t) :
    noStartFrom ('\n' :: pch :: ptail) (pcOf rows) ext 0 := by
  obtain ⟨⟨tJ, hJ⟩, nsJ⟩ := rowTrain hp1 rows hrows hall
  unfold pcOf
  apply noStartFrom_append
  · exact noStartFrom_of_head_notMem (by decide)
  · show noStartFrom ('\n' :: pch :: ptail)
      (['\n'] ++ ('\n' ::
        (thSeg ++ '\n' :: (tsSeg ++ '\n' :: (joinNl rows ++ ['\n'])))))
      ext 0
    apply noStartFrom_append
    · exact noStartFrom_single (not_prefixOf_nl hp2 ⟨_, rfl⟩)
    · show noStartFrom ('\n' :: pch :: ptail)
        (['\n'] ++ (thSeg ++ '\n' :: (tsSeg ++ '\n' ::
          (joinNl rows ++ ['\n'])))) ext 0
      apply noStartFrom_append
      · apply noStartFrom_single
        apply not_prefixOf_nl hp1
        exact head_append _ (head_append _
          ⟨" Date & Time | File | Size |".toList, by decide⟩)
      · apply noStartFrom_append
        · exact noStartFrom_of_head_notMem (by decide)
        · show noStartFrom ('\n' :: pch :: ptail)
            (['\n'] ++ (tsSeg ++ '\n' :: (joinNl rows ++ ['\n']))) ext 0
          apply noStartFrom_append
          · apply noStartFrom_single
            apply not_prefixOf_nl hp1
            exact head_append _ (head_append _
              ⟨"-------------|------|------|".toList, by decide⟩)
          · apply noStartFrom_append
            · exact noStartFrom_of_head_notMem (by decide)
            · show noStartFrom ('\n' :: pch :: ptail)
                (['\n'] ++ (joinNl rows ++ ['\n'])) ext 0
              apply noStartFrom_append
              · apply noStartFrom_single
                apply not_prefixOf_nl hp1
                exact head_append _ (head_append _ ⟨tJ, hJ⟩)
              · apply noStartFrom_append
                · exact nsJ (['\n'] ++ ext)
                · exact noStartFrom_single (not_prefixOf_nl hp2 hext)

theorem rowsOk {mods : List ModRecord}
    (hpaths : ∀ m ∈ mods, '\n' ∉ m.path) :
    ∀ r ∈ mods.map pmRow, (∃ t, r = '|' :: t) ∧ '\n' ∉ r := by
  intro r hr
  rw [List.mem_map] at hr
  obtain ⟨m, hm, rfl⟩ := hr
  exact ⟨pmRow_head m, pmRow_lineFree (hpaths m hm)⟩

theorem ySeg_lineFree {now : List Char} (hnow : '\n' ∉ now) :
    '\n' ∉ ySeg now := by
  unfold ySeg
  intro h
  simp only [List.mem_append] at h
  rcases h with (h | h) | h
  · revert h; decide
  · exact hnow h
  · revert h; decide

theorem ySeg_head (now : List Char) : ∃ t, ySeg now = '*' :: t := by
  unfold ySeg
  exact head_append _ (head_append _ ⟨"Last scan: ".toList, by decide⟩)

theorem c_noStart_nlH2 {mods : List ModRecord} {now B : List Char}
    (hmods : mods ≠ []) (hpaths : ∀ m ∈ mods, '\n' ∉ m.path)
    (hnow : '\n' ∉ now) :
    noStartFrom nlH2 (format_modifications mods now) B 0 := by
  rw [render_eq now hmods]
  have hshape : nlH2 = '\n' :: '#' :: "# ".toList := by decide
  rw [hshape]
  apply noStartFrom_append
  · exact pcOf_noStart (by decide) (by decide) (by simpa using hmods)
      (rowsOk hpaths) ⟨ySeg now ++ B, rfl⟩
  · show noStartFrom ('\n' :: '#' :: "# ".toList) (['\n'] ++ ySeg now) B 0
    apply noStartFrom_append
    · exact noStartFrom_single (not_prefixOf_nl (by decide)
        (head_append _ (ySeg_head now)))
    · exact noStartFrom_of_head_notMem (ySeg_lineFree hnow)

theorem c_starts_with_raPat {mods : List ModRecord} {now : List Char}
    (hmods : mods ≠ []) :
    raPat.isPrefixOf (format_modifications mods now) = true := by
  rw [render_eq now hmods]
  apply prefixOf_of_prefixOf_left
  unfold pcOf
  apply prefixOf_of_prefixOf_left
  decide

theorem c_find_lastScan {mods : List ModRecord} {now B : List Char}
    (hmods : mods ≠ []) (hpaths : ∀ m ∈ mods, '\n' ∉ m.path) :
    findFrom lastScanPat (format_modifications mods now ++ B) 0 =
      some (pcOf (mods.map pmRow)).length := by
  rw [render_eq now hmods, List.append_assoc]
  apply findFrom_append_at
  · have hshape : lastScanPat = '\n' :: '*' :: "Last scan:".toList := by
      decide
    rw [hshape]
    exact pcOf_noStart (by decide) (by decide) (by simpa using hmods)
      (rowsOk hpaths) ⟨ySeg now ++ B, rfl⟩
  · show lastScanPat.isPrefixOf ('\n' :: (ySeg now ++ B)) = true
    have hshape : lastScanPat = '\n' :: "*Last scan:".toList := by decide
    rw [hshape, prefixOf_cons_cons]
    unfold ySeg
    have hsp : "*Last scan: ".toList =
        "*Last scan:".toList ++ [' '] := by decide
    rw [hsp]
    simp only [List.append_assoc]
    exact prefixOf_append_self _ _
  · exact Nat.zero_le _

theorem c_find_nl {mods : List ModRecord} {now B : List Char}
    (hmods : mods ≠ []) (hnow : '\n' ∉ now) (hB : ∃ t, B = '\n' :: t) :
    findFrom ['\n'] (format_modifications mods now ++ B)
        ((pcOf (mods.map pmRow)).length + 1) =
      some (format_modifications mods now).length := by
  rw [render_eq now hmods]
  have hsplit : pcOf (mods.map pmRow) ++ '\n' :: ySeg now =
      (pcOf (mods.map pmRow) ++ ['\n']) ++ ySeg now := by simp
  rw [hsplit]
  apply findFrom_append_at
  · have hns := noStartFrom_shift (X := pcOf (mods.map pmRow) ++ ['\n'])
      (Z := B) (noStartFrom_of_head_notMem (p := []) (ySeg_lineFree hnow))
    have hlen : (pcOf (mods.map pmRow) ++ ['\n']).length =
        (pcOf (mods.map pmRow)).length + 1 := by simp
    rwa [hlen] at hns
  · obtain ⟨t, rfl⟩ := hB
    simp [List.isPrefixOf]
  · simp

theorem c_find_nlH2 {mods : List ModRecord} {now B : List Char}
    (hmods : mods ≠ []) (hpaths : ∀ m ∈ mods, '\n' ∉ m.path)
    (hnow : '\n' ∉ now) (hBp : nlH2.isPrefixOf B = true) :
    findFrom nlH2 (format_modifications mods now ++ B) 1 =
      some (format_modifications mods now).length := by
  apply findFrom_append_at
  · intro i _ hi
    exact c_noStart_nlH2 hmods hpaths hnow i (Nat.zero_le i) hi
  · exact hBp
  · rw [render_eq now hmods]
    have : hbSeg.length = 34 := by decide
    simp [pcOf]
    omega

theorem noStartFrom_transfer {pat A e1 e2 : List Char}
    (h1 : pat.isPrefixOf e1 = true) (h2 : pat.isPrefixOf e2 = true)
    (hns : noStartFrom pat A e1 0) : noStartFrom pat A e2 0 := by
  intro i hk hi hpre
  refine hns i hk hi ?_
  rw [List.isPrefixOf_iff_prefix] at h1 h2 hpre ⊢
  have hdrop2 : (A ++ e2).drop i = A.drop i ++ e2 := by
    rw [List.drop_append_eq_append_drop]
    have : i - A.length = 0 := by omega
    rw [this]
    simp
  have hdrop1 : (A ++ e1).drop i = A.drop i ++ e1 := by
    rw [List.drop_append_eq_append_drop]
    have : i - A.length = 0 := by omega
    rw [this]
    simp
  rw [hdrop2] at hpre
  rw [hdrop1]
  by_cases hlen : pat.length ≤ (A.drop i).length
  · have hpa : pat <+: A.drop i :=
      List.prefix_of_prefix_length_le hpre (List.prefix_append _ e2) hlen
    exact hpa.trans (List.prefix_append _ e1)
  · push_neg at hlen
    have hap : A.drop i <+: pat :=
      List.prefix_of_prefix_length_le (List.prefix_append _ e2) hpre
        (by omega)
    obtain ⟨r, hr⟩ := hap
    have hre2 : r <+: e2 := by
      obtain ⟨t, ht⟩ := hpre
      rw [← hr, List.append_assoc] at ht
      exact ⟨t, List.append_cancel_left ht⟩
    have hrlen : r.length ≤ pat.length := by
      have := congrArg List.length hr
      simp only [List.length_append] at this
      omega
    have hre1 : r <+: e1 :=
      (List.prefix_of_prefix_length_le hre2 h2 hrlen).trans h1
    obtain ⟨w, hw⟩ := hre1
    exact ⟨w, by rw [← hr, List.append_assoc, hw]⟩

theorem splice_first {A M B act : List Char}
    (hA : noStartFrom raPat A (raPat ++ M ++ B) 0)
    (hM2 : noStartFrom nlH2 M B 0)
    (hMls : noStartFrom lastScanPat M B 0)
    (hB : nlH2.isPrefixOf B = true) :
    update_markdown_file (A ++ raPat ++ M ++ B) act = A ++ act ++ B := by
  have hnlShape : nlH2 = '\n' :: '#' :: "# ".toList := by decide
  have hlsShape : lastScanPat = '\n' :: '*' :: "Last scan:".toList := by
    decide
  have h_ra : findFrom raPat (A ++ raPat ++ M ++ B) 0 = some A.length := by
    rw [List.append_assoc, List.append_assoc]
    apply findFrom_append_at
    · rw [List.append_assoc] at hA
      exact hA
    · exact prefixOf_append_self _ _
    · exact Nat.zero_le _
  have hdrop : (A ++ raPat ++ M ++ B).drop A.length = (raPat ++ M) ++ B := by
    have : A ++ raPat ++ M ++ B = A ++ ((raPat ++ M) ++ B) := by
      simp [List.append_assoc]
    rw [this]
    exact List.drop_left A _
  have hns1 : noStartFrom nlH2 (raPat ++ M) B 1 := by
    apply noStartFrom_append
    · rw [hnlShape]
      exact noStartFrom_of_head_notMem (by decide)
    · exact hM2
  have hralen : raPat.length = 18 := by decide
  have hfind_h2 : findFrom nlH2 ((raPat ++ M) ++ B) 1 =
      some (raPat ++ M).length := by
    apply findFrom_append_at hns1 hB
    rw [List.length_append]
    omega
  have hh : regionEndHeading (A ++ raPat ++ M ++ B) A.length =
      A.length + (raPat ++ M).length := by
    unfold regionEndHeading
    rw [hdrop]
    simp only [hfind_h2]
  have hnsls : noStartFrom lastScanPat (raPat ++ M) B 0 := by
    apply noStartFrom_append
    · rw [hlsShape]
      exact noStartFrom_of_head_notMem (by decide)
    · exact hMls
  have hre : regionEnd (A ++ raPat ++ M ++ B) A.length =
      A.length + (raPat ++ M).length := by
    unfold regionEnd
    rw [hdrop, hh]
    cases hls : findFrom lastScanPat ((raPat ++ M) ++ B) 0 with
    | none => simp only []
    | some ls =>
      have hge : (raPat ++ M).length ≤ ls := findFrom_append_ge hls hnsls
      simp only []
      cases hle : findFrom ['\n'] ((raPat ++ M) ++ B) (ls + 1) with
      | none => simp only []
      | some le =>
        have hlele : ls + 1 ≤ le := (findFrom_spec hle).1
        simp only []
        rw [if_neg (by omega)]
  unfold update_markdown_file
  rw [h_ra]
  simp only []
  rw [hre]
  have htake : (A ++ raPat ++ M ++ B).take A.length = A := by
    have : A ++ raPat ++ M ++ B = A ++ ((raPat ++ M) ++ B) := by
      simp [List.append_assoc]
    rw [this]
    exact List.take_left A _
  have hdrop2 : (A ++ raPat ++ M ++ B).drop
      (A.length + (raPat ++ M).length) = B := by
    have : A ++ raPat ++ M ++ B = (A ++ (raPat ++ M)) ++ B := by
      simp [List.append_assoc]
    rw [this]
    exact List.drop_left' (by rw [List.length_append])
  rw [htake, hdrop2]

theorem splice_fixed {A B : List Char} {mods : List ModRecord}
    {now : List Char}
    (hA : noStartFrom raPat A (format_modifications mods now ++ B) 0)
    (hmods : mods ≠ [])
    (hpaths : ∀ m ∈ mods, '\n' ∉ m.path) (hnow : '\n' ∉ now)
    (hB : nlH2.isPrefixOf B = true) :
    update_markdown_file (A ++ format_modifications mods now ++ B)
      (format_modifications mods now) =
      A ++ format_modifications mods now ++ B := by
  have hBcons : ∃ t, B = '\n' :: t := by
    have hshape : nlH2 = '\n' :: "## ".toList := by decide
    rw [hshape] at hB
    exact eq_cons_of_prefixOf_cons hB
  have h_ra : findFrom raPat
      (A ++ format_modifications mods now ++ B) 0 = some A.length := by
    rw [List.append_assoc]
    apply findFrom_append_at
    · exact hA
    · exact prefixOf_of_prefixOf_left _ (c_starts_with_raPat hmods)
    · exact Nat.zero_le _
  have hdrop : (A ++ format_modifications mods now ++ B).drop A.length =
      format_modifications mods now ++ B := by
    rw [List.append_assoc]
    exact List.drop_left A _
  have hh : regionEndHeading (A ++ format_modifications mods now ++ B)
      A.length = A.length + (format_modifications mods now).length := by
    unfold regionEndHeading
    rw [hdrop]
    simp only [c_find_nlH2 hmods hpaths hnow hB]
  have hre : regionEnd (A ++ format_modifications mods now ++ B) A.length =
      A.length + (format_modifications mods now).length := by
    unfold regionEnd
    rw [hdrop, hh]
    simp only [c_find_lastScan hmods hpaths, c_find_nl hmods hnow hBcons]
    rw [if_neg (by omega)]
  unfold update_markdown_file
  rw [h_ra]
  simp only []
  rw [hre]
  have htake : (A ++ format_modifications mods now ++ B).take A.length =
      A := by
    rw [List.append_assoc]
    exact List.take_left A _
  have hdrop2 : (A ++ format_modifications mods now ++ B).drop
      (A.length + (format_modifications mods now).length) = B := by
    exact List.drop_left' (by rw [List.length_append])
  rw [htake, hdrop2]

/-- Claim C1 (amended): splicing is idempotent on documents of the form
`A ++ "## Recent Activity" ++ M ++ B` where the region is the addressed
one (no occurrence of `"## Recent Activity"` starts inside the prefix
`A`, so the splicer's first-occurrence search lands on it), the region
body `M` contains no `"\n## "` boundary and no `"\n*Last scan:"` cue
(occurrences may look past `M` into `B`), and the region is terminated
directly by a following heading (`B` starts with `"\n## "`): there a
second application with the same rendered content leaves the document
unchanged.  (The restriction on `M` and `B` is necessary: see the
counterexample, where stray text between the region's trailing
`*Last scan:` line and the next heading is deleted by the second
application.) -/
theorem claim_C1_idempotent_amended {A M B : List Char}
    {mods : List ModRecord} {now : List Char}
    (hA : noStartFrom raPat A (raPat ++ M ++ B) 0)
    (hM2 : noStartFrom nlH2 M B 0)
    (hMls : noStartFrom lastScanPat M B 0)
    (hB : nlH2.isPrefixOf B = true) (hmods : mods ≠ [])
    (hpaths : ∀ m ∈ mods, '\n' ∉ m.path) (hnow : '\n' ∉ now) :
    update_markdown_file
        (update_markdown_file (A ++ raPat ++ M ++ B)
          (format_modifications mods now))
        (format_modifications mods now) =
      update_markdown_file (A ++ raPat ++ M ++ B)
        (format_modifications mods now) := by
  have h1 : raPat.isPrefixOf (raPat ++ M ++ B) = true := by
    rw [List.append_assoc]
    exact prefixOf_append_self _ _
  have h2 : raPat.isPrefixOf (format_modifications mods now ++ B) = true :=
    prefixOf_of_prefixOf_left _ (c_starts_with_raPat hmods)
  rw [splice_first hA hM2 hMls hB]
  exact splice_fixed (noStartFrom_transfer h1 h2 hA) hmods hpaths hnow hB

/-- Claim C1 witness: a concrete document of the amended shape, spliced
twice. -/
theorem claim_C1_witness :
    (noStartFrom raPat "# Title\n\n".toList
       (raPat ++ "\nold line\n* stale\n".toList ++
         "\n## Next\nTail\n".toList) 0 ∧
     noStartFrom nlH2 "\nold line\n* stale\n".toList "\n## Next\nTail\n".toList 0 ∧
     noStartFrom lastScanPat "\nold line\n* stale\n".toList
       "\n## Next\nTail\n".toList 0 ∧
     nlH2.isPrefixOf "\n## Next\nTail\n".toList = true ∧
     ([⟨"a.py".toList, 1700000000, 2048⟩] : List ModRecord) ≠ [] ∧
     (∀ m ∈ ([⟨"a.py".toList, 1700000000, 2048⟩] : List ModRecord),
       '\n' ∉ m.path) ∧
     '\n' ∉ "2023-11-14 22:13:20".toList) ∧
    update_markdown_file
        (update_markdown_file
          ("# Title\n\n".toList ++ raPat ++ "\nold line\n* stale\n".toList ++
            "\n## Next\nTail\n".toList)
          (format_modifications [⟨"a.py".toList, 1700000000, 2048⟩]
            "2023-11-14 22:13:20".toList))
        (format_modifications [⟨"a.py".toList, 1700000000, 2048⟩]
          "2023-11-14 22:13:20".toList) =
      update_markdown_file
        ("# Title\n\n".toList ++ raPat ++ "\nold line\n* stale\n".toList ++
          "\n## Next\nTail\n".toList)
        (format_modifications [⟨"a.py".toList, 1700000000, 2048⟩]
          "2023-11-14 22:13:20".toList) :=
  ⟨⟨by decide, by decide, by decide, by decide, by decide, by decide,
    by decide⟩,
   claim_C1_idempotent_amended (by decide) (by decide) (by decide)
     (by decide) (by decide) (by decide) (by decide)⟩
